import Mathlib

/-!
Verification of the semantic-deduplication pipeline specification for the
NeMo-Curator `semdedup_example` module.

The repository ships only the orchestration example
(`examples/semdedup_example.py`); the deduplication core (`SemDedup` and its
collaborators) is referenced through its public contract.  The core components
below are therefore modelled from the specification text; the parts concerning
`main` (step ordering, client lifetime, input-file truncation) are embedded
from the example source itself.
-/

/-- Modelled from the spec: a document is an opaque payload with a stable id;
the core never mutates it.  The `SemDedup` module source is not in the
repository, so the data model follows the spec's Data Model section. -/
structure Document where
  id : String
  payload : String
deriving DecidableEq

/-- Modelled from the spec: an embedding pairs a document id with a
fixed-length vector.  Vector entries are modelled as rationals. -/
structure Embedding where
  document_id : String
  vector : List ℚ
deriving DecidableEq

/-- Modelled from the spec: the error taxonomy of section 7. -/
inductive DedupError where
  | InsufficientData
  | DimensionMismatch
  | StorageUnavailable
deriving DecidableEq

/-- Dot product of two rational vectors. -/
def dot (u v : List ℚ) : ℚ :=
  (List.zipWith (· * ·) u v).sum

/-- Squared L2 distance between two rational vectors. -/
def sqDist (u v : List ℚ) : ℚ :=
  (List.zipWith (fun a b => (a - b) ^ 2) u v).sum

/-- Modelled from the spec: the configured similarity test.  Cosine similarity
of `u` and `v` is at least `T` (for `T > 0`) iff the dot product is
nonnegative and its square is at least `T ^ 2` times the product of the
squared norms; this form avoids square roots and is exact over ℚ. -/
def simAtLeast (T : ℚ) (u v : List ℚ) : Bool :=
  decide (0 ≤ dot u v) && decide (T ^ 2 * (dot u u * dot v v) ≤ (dot u v) ^ 2)

/-- Similarity test lifted to embeddings: the "near-duplicate" relation. -/
def similarEmb (T : ℚ) (e₁ e₂ : Embedding) : Bool :=
  simAtLeast T e₁.vector e₂.vector

/-- Index of the least element of a list of rationals (first occurrence);
`0` on the empty list. -/
def argminIdx : List ℚ → ℕ
  | [] => 0
  | a :: rest =>
    let j := argminIdx rest
    match rest.get? j with
    | none => 0
    | some b => if a ≤ b then 0 else j + 1

/-- Modelled from the spec: index of the nearest centroid by the fixed
distance metric (squared L2); ties break to the lowest index. -/
def nearestIdx (centroids : List (List ℚ)) (v : List ℚ) : ℕ :=
  argminIdx (centroids.map (fun c => sqDist v c))

/-- Modelled from the spec: deterministic seeding of the K initial centroids
by sampling the input in a fixed traversal order derived from `seed`
(rotate the input by `seed`, take the first `K`). -/
def initCentroids (es : List Embedding) (K seed : ℕ) : List (List ℚ) :=
  ((es.rotate seed).take K).map Embedding.vector

/-- One assignment step: each embedding goes to its nearest centroid. -/
def assignStep (centroids : List (List ℚ)) (es : List Embedding) :
    List (Embedding × ℕ) :=
  es.map (fun e => (e, nearestIdx centroids e.vector))

/-- Componentwise mean of a list of vectors of dimension `dim`. -/
def meanVec (dim : ℕ) (vs : List (List ℚ)) : List ℚ :=
  (vs.foldl (fun acc v => List.zipWith (· + ·) acc v)
      (List.replicate dim 0)).map (fun x => x / (vs.length : ℚ))

/-- Modelled from the spec: the vector among the input that is globally
farthest from its nearest centroid (used to re-seed an empty cluster). -/
def farthestVec (centroids : List (List ℚ)) (es : List Embedding) : List ℚ :=
  let ds := es.map (fun e => -(sqDist e.vector
    ((centroids.get? (nearestIdx centroids e.vector)).getD [])))
  ((es.get? (argminIdx ds)).map Embedding.vector).getD []

/-- Modelled from the spec: centroid recomputation — each of the `K` clusters
gets the mean of its assigned points; an empty cluster is re-seeded from the
globally farthest point. -/
def updateCentroids (K dim : ℕ) (centroids : List (List ℚ))
    (es : List Embedding) (asg : List (Embedding × ℕ)) : List (List ℚ) :=
  (List.range K).map (fun c =>
    let pts := (asg.filter (fun p => p.2 = c)).map (fun p => p.1.vector)
    if pts.isEmpty then farthestVec centroids es else meanVec dim pts)

/-- Modelled from the spec: the centroid-refinement loop — alternate
assignment and centroid recomputation until the assignment stabilizes or the
iteration cap is exhausted. -/
def kmeansLoop (es : List Embedding) (K dim : ℕ) :
    ℕ → List (List ℚ) → List (Embedding × ℕ)
  | 0, cs => assignStep cs es
  | fuel + 1, cs =>
    let asg := assignStep cs es
    let cs' := updateCentroids K dim cs es asg
    let asg' := assignStep cs' es
    if asg' = asg then asg else kmeansLoop es K dim fuel cs'

/-- Dimensionality of a run: the length of the first vector. -/
def dimOf (es : List Embedding) : ℕ :=
  ((es.head?.map (fun e => e.vector.length)).getD 0)

/-- Modelled from the spec: `ClusterAssigner.assign` — fails with
`InsufficientData` when fewer embeddings than requested clusters; otherwise
runs seeded k-means and yields the document → cluster-id assignment. -/
def ClusterAssigner.assign (es : List Embedding) (K seed maxIters : ℕ) :
    Except DedupError (List (Embedding × ℕ)) :=
  if es.length < K then .error .InsufficientData
  else .ok (kmeansLoop es K (dimOf es) maxIters (initCentroids es K seed))

/-- Does element `x` relate to some element of component `c`? -/
def touches (r : α → α → Bool) (x : α) (c : List α) : Bool :=
  c.any (fun y => r x y)

/-- Insert an element into a component list: merge every component containing
a neighbour of `x` together with `x`; leave the others untouched. -/
def insertComp (r : α → α → Bool) (x : α) (comps : List (List α)) :
    List (List α) :=
  (x :: (comps.filter (fun c => touches r x c)).flatten) ::
    comps.filter (fun c => !touches r x c)

/-- Modelled from the spec: connected components of the relation `r` over the
elements of `l` (the union-find over pairs exceeding the threshold),
computed incrementally. -/
def groupComponents (r : α → α → Bool) (l : List α) : List (List α) :=
  l.foldl (fun comps x => insertComp r x comps) []

/-- Lexicographic comparison of character lists (by code point). -/
def charListLe : List Char → List Char → Bool
  | [], _ => true
  | _ :: _, [] => false
  | c :: cs, d :: ds =>
    if c.toNat < d.toNat then true
    else if d.toNat < c.toNat then false
    else charListLe cs ds

/-- The fixed total order on document ids: lexicographic on the string. -/
def idLe (a b : String) : Bool := charListLe a.data b.data

/-- The smaller of two ids in the fixed total order. -/
def idMin (a b : String) : String := if idLe a b then a else b

/-- Least element of a list of ids in the lexicographic order on strings;
`""` on the empty list (never used on an empty group). -/
def minId : List String → String
  | [] => ""
  | h :: t => t.foldl idMin h

/-- Modelled from the spec: a duplicate group — a cluster id, the member ids,
and the selected keeper. -/
structure DuplicateGroup where
  cluster_id : ℕ
  members : List String
  keeper_id : String
deriving DecidableEq

/-- Modelled from the spec: `DuplicateRanker.rank` — connected components of
the similarity relation within the cluster, dropping singletons (a document
with no similar neighbour forms no group); the keeper of each group is the
member with the lowest id. -/
def DuplicateRanker.rank (similar : Embedding → Embedding → Bool)
    (cluster_id : ℕ) (members : List Embedding) : List DuplicateGroup :=
  ((groupComponents similar members).filter (fun g => 2 ≤ g.length)).map
    (fun g =>
      { cluster_id := cluster_id
        members := g.map Embedding.document_id
        keeper_id := minId (g.map Embedding.document_id) })

/-- Members of cluster `c` under an assignment, in traversal order. -/
def clusterMembers (asg : List (Embedding × ℕ)) (c : ℕ) : List Embedding :=
  (asg.filter (fun p => p.2 = c)).map Prod.fst

/-- Modelled from the spec: the identify phase of the pipeline — cluster the
embeddings, then rank each cluster independently. -/
def identifyDuplicateGroups (es : List Embedding) (K seed maxIters : ℕ)
    (T : ℚ) : Except DedupError (List DuplicateGroup) :=
  (ClusterAssigner.assign es K seed maxIters).map (fun asg =>
    (List.range K).flatMap (fun c =>
      DuplicateRanker.rank (similarEmb T) c (clusterMembers asg c)))

/-- Modelled from the spec: the `DuplicateIdSet` — the union over all groups
of the members minus the keeper. -/
def duplicateIdSet (groups : List DuplicateGroup) : List String :=
  groups.flatMap (fun g => g.members.filter (fun i => i ≠ g.keeper_id))

/-- Modelled from the spec: `RemovalApplier.apply` — the pure set-difference
filter retaining exactly the documents whose id is not in the duplicate set. -/
def RemovalApplier.apply (dataset : List Document) (dupIds : List String) :
    List Document :=
  dataset.filter (fun d => !dupIds.contains d.id)

/-- Modelled from the spec: one persisted cache entry — a fingerprint key,
the integrity marker (written only after a successful full write), and the
cached artifact. -/
structure CacheEntry where
  fingerprint : ℕ
  intact : Bool
  artifact : List String
deriving DecidableEq

/-- Modelled from the spec: `DedupResultCache.get` — returns the artifact of
the first intact entry whose fingerprint matches exactly; everything else
(mismatch, corrupted or partially written entry) is a miss. -/
def DedupResultCache.get (cache : List CacheEntry) (fp : ℕ) :
    Option (List String) :=
  ((cache.filter (fun e => e.fingerprint = fp && e.intact)).head?).map
    CacheEntry.artifact

/-- Modelled from the spec: `DedupResultCache.put` — writes a full entry with
the integrity marker set; unwritable host storage is the only fatal cache
failure. -/
def DedupResultCache.put (writable : Bool) (cache : List CacheEntry)
    (fp : ℕ) (art : List String) : Except DedupError (List CacheEntry) :=
  if writable then .ok (⟨fp, true, art⟩ :: cache)
  else .error .StorageUnavailable

/-- Steps of `main` in `examples/semdedup_example.py`, one per effectful
statement, in source order. -/
inductive MainStep where
  | loadConfig
  | getClient
  | silenceWarnings
  | clientRunSilence
  | expandCacheDir
  | createLogger
  | listInputFiles
  | truncateInputFiles
  | logFileCount
  | readData
  | wrapDataset
  | constructSemDedup
  | identifyDuplicates
  | printDuplicates
  | logIdentifyTime
  | removeDuplicates
  | printResult
  | logRemoveTime
  | cancelFutures
  | closeClient
deriving DecidableEq

/-- The statements of `main`, in the order the source executes them. -/
def mainSteps : List MainStep :=
  [.loadConfig, .getClient, .silenceWarnings, .clientRunSilence,
   .expandCacheDir, .createLogger, .listInputFiles, .truncateInputFiles,
   .logFileCount, .readData, .wrapDataset, .constructSemDedup,
   .identifyDuplicates, .printDuplicates, .logIdentifyTime,
   .removeDuplicates, .printResult, .logRemoveTime, .cancelFutures,
   .closeClient]

/-- Steps of `main` that run to completion when `failsAt` tells which step
raises: `main` has no exception handler, so execution is the longest prefix
of non-raising steps. -/
def completedSteps (failsAt : MainStep → Bool) : List MainStep :=
  mainSteps.takeWhile (fun s => !failsAt s)

/-- The distributed compute client was constructed (the `get_client` call
completed). -/
def clientConstructed (failsAt : MainStep → Bool) : Bool :=
  decide (MainStep.getClient ∈ completedSteps failsAt)

/-- The distributed compute client was torn down (the `client.close()` call
completed). -/
def clientClosed (failsAt : MainStep → Bool) : Bool :=
  decide (MainStep.closeClient ∈ completedSteps failsAt)

/-- Input-file selection of `main`: when `num_files > 0` the list is
truncated to its first `num_files` entries, otherwise it is left whole
(`input_files[:num_files]` under the guard `num_files > 0`). -/
def selectInputFiles (input_files : List String) (num_files : ℤ) :
    List String :=
  if 0 < num_files then input_files.take num_files.toNat else input_files

deriving instance DecidableEq for Except

lemma charListLe_refl : ∀ l : List Char, charListLe l l = true := by
  intro l
  induction l with
  | nil => rfl
  | cons c cs ih => simp [charListLe, ih]

lemma charListLe_total (a b : List Char) :
    charListLe a b = true ∨ charListLe b a = true := by
  induction a generalizing b with
  | nil => left; rfl
  | cons c cs ih =>
    cases b with
    | nil => right; rfl
    | cons d ds =>
      rcases Nat.lt_trichotomy c.toNat d.toNat with h | h | h
      · left; simp [charListLe, h]
      · rcases ih ds with h' | h'
        · left; simp [charListLe, h, h']
        · right; simp [charListLe, h, h']
      · right; simp [charListLe, h]

lemma char_eq_of_toNat_eq {c d : Char} (h : c.toNat = d.toNat) : c = d := by
  apply Char.eq_of_val_eq
  apply UInt32.eq_of_toBitVec_eq
  apply BitVec.eq_of_toNat_eq
  exact h

lemma charListLe_antisymm :
    ∀ a b : List Char, charListLe a b = true → charListLe b a = true → a = b := by
  intro a
  induction a with
  | nil =>
    intro b _ hba
    cases b with
    | nil => rfl
    | cons d ds => simp [charListLe] at hba
  | cons c cs ih =>
    intro b hab hba
    cases b with
    | nil => simp [charListLe] at hab
    | cons d ds =>
      by_cases h1 : c.toNat < d.toNat
      · simp [charListLe, h1, Nat.not_lt.mpr (Nat.le_of_lt h1),
          Nat.lt_irrefl] at hba
      · by_cases h2 : d.toNat < c.toNat
        · simp [charListLe, h1, h2] at hab
        · have hcd : c = d := char_eq_of_toNat_eq (by omega)
          subst hcd
          simp [charListLe, h1, h2] at hab hba
          rw [ih ds hab hba]

lemma charListLe_trans :
    ∀ a b c : List Char, charListLe a b = true → charListLe b c = true →
      charListLe a c = true := by
  intro a
  induction a with
  | nil => intro b c _ _; rfl
  | cons x xs ih =>
    intro b c hab hbc
    cases b with
    | nil => simp [charListLe] at hab
    | cons y ys =>
      cases c with
      | nil => simp [charListLe] at hbc
      | cons z zs =>
        by_cases hxy : x.toNat < y.toNat
        · by_cases hyz : y.toNat < z.toNat
          · simp [charListLe, show x.toNat < z.toNat by omega]
          · by_cases hzy : z.toNat < y.toNat
            · simp [charListLe, hyz, hzy] at hbc
            · have : y = z := char_eq_of_toNat_eq (by omega)
              subst this
              simp [charListLe, hxy]
        · by_cases hyx : y.toNat < x.toNat
          · simp [charListLe, hxy, hyx] at hab
          · have hxy' : x = y := char_eq_of_toNat_eq (by omega)
            subst hxy'
            simp [charListLe, hxy] at hab
            by_cases hyz : x.toNat < z.toNat
            · simp [charListLe, hyz]
            · by_cases hzy : z.toNat < x.toNat
              · simp [charListLe, hyz, hzy] at hbc
              · have : x = z := char_eq_of_toNat_eq (by omega)
                subst this
                simp [charListLe, hyz] at hbc ⊢
                exact ih ys zs hab hbc

lemma idLe_refl (a : String) : idLe a a = true := charListLe_refl a.data

lemma idLe_total (a b : String) : idLe a b = true ∨ idLe b a = true :=
  charListLe_total a.data b.data

lemma idLe_antisymm {a b : String} (hab : idLe a b = true)
    (hba : idLe b a = true) : a = b := by
  have h := charListLe_antisymm a.data b.data hab hba
  cases a; cases b; exact congrArg String.mk h

lemma idLe_trans {a b c : String} (hab : idLe a b = true)
    (hbc : idLe b c = true) : idLe a c = true :=
  charListLe_trans a.data b.data c.data hab hbc

lemma idMin_le_left (a b : String) : idLe (idMin a b) a = true := by
  unfold idMin
  by_cases h : idLe a b = true
  · simp [h, idLe_refl]
  · rcases idLe_total a b with h' | h'
    · exact absurd h' h
    · simp [h, h']

lemma idMin_le_right (a b : String) : idLe (idMin a b) b = true := by
  unfold idMin
  by_cases h : idLe a b = true
  · simp [h]
  · simp [h, idLe_refl]

lemma idMin_eq_or (a b : String) : idMin a b = a ∨ idMin a b = b := by
  unfold idMin
  by_cases h : idLe a b = true <;> simp [h]

lemma foldl_idMin_mem (t : List String) :
    ∀ acc, t.foldl idMin acc = acc ∨ t.foldl idMin acc ∈ t := by
  induction t with
  | nil => intro acc; left; rfl
  | cons x ts ih =>
    intro acc
    have hfc : (x :: ts).foldl idMin acc = ts.foldl idMin (idMin acc x) := by
      simp [List.foldl_cons]
    rcases ih (idMin acc x) with h | h
    · rcases idMin_eq_or acc x with h' | h'
      · left; rw [hfc, h, h']
      · right; rw [hfc, h, h']; exact List.mem_cons_self x ts
    · right; rw [hfc]; exact List.mem_cons_of_mem x h

lemma foldl_idMin_le (t : List String) :
    ∀ acc, idLe (t.foldl idMin acc) acc = true ∧
      ∀ x ∈ t, idLe (t.foldl idMin acc) x = true := by
  induction t with
  | nil => intro acc; exact ⟨idLe_refl acc, by simp⟩
  | cons y ts ih =>
    intro acc
    obtain ⟨h1, h2⟩ := ih (idMin acc y)
    refine ⟨idLe_trans h1 (idMin_le_left acc y), ?_⟩
    intro x hx
    rcases List.mem_cons.mp hx with rfl | hx'
    · exact idLe_trans h1 (idMin_le_right acc x)
    · exact h2 x hx'

lemma minId_mem {l : List String} (h : l ≠ []) : minId l ∈ l := by
  cases l with
  | nil => exact absurd rfl h
  | cons a t =>
    rcases foldl_idMin_mem t a with h' | h'
    · simp [minId, h']
    · simp [minId, List.mem_cons, h']

lemma minId_le {l : List String} {x : String} (hx : x ∈ l) :
    idLe (minId l) x = true := by
  cases l with
  | nil => simp at hx
  | cons a t =>
    rcases List.mem_cons.mp hx with rfl | hx'
    · exact (foldl_idMin_le t x).1
    · exact (foldl_idMin_le t a).2 x hx'

lemma minId_unique {l : List String} {m : String} (hm : m ∈ l)
    (hle : ∀ x ∈ l, idLe m x = true) : m = minId l := by
  have h1 : idLe m (minId l) = true :=
    hle _ (minId_mem (List.ne_nil_of_mem hm))
  have h2 : idLe (minId l) m = true := minId_le hm
  exact idLe_antisymm h1 h2

/-- Edge relation of the similarity graph restricted to a scope `S`. -/
def relOn (r : α → α → Bool) (S : α → Prop) (a b : α) : Prop :=
  S a ∧ S b ∧ r a b = true

/-- Chain connectivity ("connected by a chain of pairs meeting the
threshold") within the scope `S`. -/
def reachOn (r : α → α → Bool) (S : α → Prop) : α → α → Prop :=
  Relation.ReflTransGen (relOn r S)

lemma reachOn_mono {r : α → α → Bool} {S S' : α → Prop}
    (h : ∀ a, S a → S' a) {a b : α} (hr : reachOn r S a b) :
    reachOn r S' a b :=
  Relation.ReflTransGen.mono (fun _ _ hp => ⟨h _ hp.1, h _ hp.2.1, hp.2.2⟩) hr

lemma reachOn_symm {r : α → α → Bool} (hsym : ∀ a b, r a b = r b a)
    {S : α → Prop} {a b : α} (hr : reachOn r S a b) : reachOn r S b a := by
  induction hr with
  | refl => exact Relation.ReflTransGen.refl
  | tail _ hedge ih =>
    exact Relation.ReflTransGen.trans
      (Relation.ReflTransGen.single ⟨hedge.2.1, hedge.1, (hsym _ _).trans hedge.2.2⟩) ih

/-- Invariant of the incremental connected-components computation: the
components are nonempty, pairwise disjoint, cover exactly the scope `S`,
each is internally chain-connected, and no similarity edge crosses two
different components. -/
def CompsInv (r : α → α → Bool) (S : α → Prop) (comps : List (List α)) : Prop :=
  (∀ c ∈ comps, c ≠ []) ∧
  comps.flatten.Nodup ∧
  (∀ a, a ∈ comps.flatten ↔ S a) ∧
  (∀ c ∈ comps, ∀ a ∈ c, ∀ b ∈ c, reachOn r S a b) ∧
  (∀ c ∈ comps, ∀ c' ∈ comps, ∀ a ∈ c, ∀ b ∈ c', r a b = true → c = c')

lemma comp_unique {comps : List (List α)} (hnd : comps.flatten.Nodup) :
    ∀ c ∈ comps, ∀ c' ∈ comps, ∀ a, a ∈ c → a ∈ c' → c = c' := by
  induction comps with
  | nil => intro c hc; simp at hc
  | cons d rest ih =>
    intro c hc c' hc' a ha ha'
    have hnd' : (d ++ rest.flatten).Nodup := by simpa using hnd
    rw [List.nodup_append] at hnd'
    rcases List.mem_cons.mp hc with rfl | hcr
    · rcases List.mem_cons.mp hc' with rfl | hcr'
      · rfl
      · exact absurd (List.mem_flatten.mpr ⟨c', hcr', ha'⟩)
          (fun hmem => hnd'.2.2 ha hmem)
    · rcases List.mem_cons.mp hc' with rfl | hcr'
      · exact absurd (List.mem_flatten.mpr ⟨c, hcr, ha⟩)
          (fun hmem => hnd'.2.2 ha' hmem)
      · exact ih hnd'.2.1 c hcr c' hcr' a ha ha'

lemma mem_comp_of_reach {r : α → α → Bool} {S : α → Prop}
    {comps : List (List α)} (hinv : CompsInv r S comps)
    {c : List α} (hc : c ∈ comps) {a b : α} (ha : a ∈ c)
    (hr : reachOn r S a b) : b ∈ c := by
  obtain ⟨-, hnd, hmem, -, hsat⟩ := hinv
  induction hr with
  | refl => exact ha
  | tail _ hedge ih =>
    rename_i u v _
    have hv : v ∈ comps.flatten := (hmem v).mpr hedge.2.1
    obtain ⟨c', hc', hvc'⟩ := List.mem_flatten.mp hv
    have : c = c' := hsat c hc c' hc' u ih v hvc' hedge.2.2
    rw [this]; exact hvc'

lemma inv_congr {r : α → α → Bool} {S S' : α → Prop}
    {comps : List (List α)} (h : ∀ a, S a ↔ S' a)
    (hinv : CompsInv r S comps) : CompsInv r S' comps := by
  obtain ⟨h1, h2, h3, h4, h5⟩ := hinv
  refine ⟨h1, h2, fun a => (h3 a).trans (h a), ?_, h5⟩
  intro c hc a ha b hb
  exact reachOn_mono (fun x hx => (h x).mp hx) (h4 c hc a ha b hb)

lemma insertComp_flatten_perm (r : α → α → Bool) (x : α)
    (comps : List (List α)) :
    List.Perm (insertComp r x comps).flatten (x :: comps.flatten) := by
  have h1 : (insertComp r x comps).flatten =
      x :: ((comps.filter (fun c => touches r x c)).flatten ++
        (comps.filter (fun c => !touches r x c)).flatten) := by
    simp [insertComp]
  rw [h1]
  refine List.Perm.cons x ?_
  have h2 : (comps.filter (fun c => touches r x c)).flatten ++
      (comps.filter (fun c => !touches r x c)).flatten =
      ((comps.filter (fun c => touches r x c)) ++
        (comps.filter (fun c => !touches r x c))).flatten :=
    (List.flatten_append _ _).symm
  rw [h2]
  exact (List.filter_append_perm _ comps).flatten

lemma inv_insert {r : α → α → Bool} (hsym : ∀ a b, r a b = r b a)
    {S : α → Prop} {comps : List (List α)} {x : α}
    (hinv : CompsInv r S comps) (hx : ¬ S x) :
    CompsInv r (fun a => a = x ∨ S a) (insertComp r x comps) := by
  obtain ⟨hne, hnd, hmem, hreach, hsat⟩ := hinv
  have hperm := insertComp_flatten_perm r x comps
  have hSS' : ∀ a, S a → (a = x ∨ S a) := fun a ha => Or.inr ha
  have hflatS : ∀ a, a ∈ (comps.filter (fun c => touches r x c)).flatten → S a := by
    intro a ha
    obtain ⟨c, hc, hac⟩ := List.mem_flatten.mp ha
    exact (hmem a).mp (List.mem_flatten.mpr ⟨c, (List.mem_filter.mp hc).1, hac⟩)
  -- connectivity from the new element to everything it merges with
  have hx_reach : ∀ b ∈ (comps.filter (fun c => touches r x c)).flatten,
      reachOn r (fun a => a = x ∨ S a) x b := by
    intro b hb
    obtain ⟨c, hcf, hbc⟩ := List.mem_flatten.mp hb
    obtain ⟨hc, htc⟩ := List.mem_filter.mp hcf
    obtain ⟨y, hy, hry⟩ := List.any_eq_true.mp htc
    have hyS : S y := (hmem y).mp (List.mem_flatten.mpr ⟨c, hc, hy⟩)
    have hbS : S b := (hmem b).mp (List.mem_flatten.mpr ⟨c, hc, hbc⟩)
    have hedge : reachOn r (fun a => a = x ∨ S a) x y :=
      Relation.ReflTransGen.single ⟨Or.inl rfl, Or.inr hyS, hry⟩
    have hyb : reachOn r (fun a => a = x ∨ S a) y b :=
      reachOn_mono hSS' (hreach c hc y hy b hbc)
    exact hedge.trans hyb
  refine ⟨?_, ?_, ?_, ?_, ?_⟩
  · -- nonemptiness
    intro c hc
    rcases List.mem_cons.mp hc with rfl | hcf
    · simp
    · exact hne c (List.mem_filter.mp hcf).1
  · -- nodup
    rw [hperm.nodup_iff]
    exact List.nodup_cons.mpr ⟨fun hmem' => hx ((hmem x).mp hmem'), hnd⟩
  · -- coverage
    intro a
    rw [hperm.mem_iff, List.mem_cons, hmem a]
  · -- internal connectivity
    intro c hc a ha b hb
    rcases List.mem_cons.mp hc with rfl | hcf
    · rcases List.mem_cons.mp ha with rfl | haf
      · rcases List.mem_cons.mp hb with rfl | hbf
        · exact Relation.ReflTransGen.refl
        · exact hx_reach b hbf
      · rcases List.mem_cons.mp hb with rfl | hbf
        · exact reachOn_symm hsym (hx_reach a haf)
        · exact (reachOn_symm hsym (hx_reach a haf)).trans (hx_reach b hbf)
    · obtain ⟨hcm, -⟩ := List.mem_filter.mp hcf
      exact reachOn_mono hSS' (hreach c hcm a ha b hb)
  · -- saturation: no edge crosses two different components
    intro c hc c' hc' a ha b hb hr
    rcases List.mem_cons.mp hc with rfl | hcf
    · rcases List.mem_cons.mp hc' with rfl | hcf'
      · rfl
      · exfalso
        obtain ⟨hcm', hnt'⟩ := List.mem_filter.mp hcf'
        have hnt'' : touches r x c' = false := by simpa using hnt'
        rcases List.mem_cons.mp ha with rfl | haf
        · have : touches r a c' = true := List.any_eq_true.mpr ⟨b, hb, hr⟩
          rw [hnt''] at this; exact Bool.false_ne_true this
        · obtain ⟨t, htf, hat⟩ := List.mem_flatten.mp haf
          obtain ⟨htm, htt⟩ := List.mem_filter.mp htf
          have : t = c' := hsat t htm c' hcm' a hat b hb hr
          rw [this] at htt
          rw [hnt''] at htt; exact Bool.false_ne_true htt
    · rcases List.mem_cons.mp hc' with rfl | hcf'
      · exfalso
        obtain ⟨hcm, hnt⟩ := List.mem_filter.mp hcf
        have hnt'' : touches r x c = false := by simpa using hnt
        have hr' : r b a = true := (hsym b a).trans hr
        rcases List.mem_cons.mp hb with rfl | hbf
        · have : touches r b c = true := List.any_eq_true.mpr ⟨a, ha, hr'⟩
          rw [hnt''] at this; exact Bool.false_ne_true this
        · obtain ⟨t, htf, hbt⟩ := List.mem_flatten.mp hbf
          obtain ⟨htm, htt⟩ := List.mem_filter.mp htf
          have : t = c := hsat t htm c hcm b hbt a ha hr'
          rw [this] at htt
          rw [hnt''] at htt; exact Bool.false_ne_true htt
      · obtain ⟨hcm, -⟩ := List.mem_filter.mp hcf
        obtain ⟨hcm', -⟩ := List.mem_filter.mp hcf'
        exact hsat c hcm c' hcm' a ha b hb hr

lemma inv_fold {r : α → α → Bool} (hsym : ∀ a b, r a b = r b a) :
    ∀ (l : List α) (S : α → Prop) (comps : List (List α)),
      CompsInv r S comps → l.Nodup → (∀ y ∈ l, ¬ S y) →
      CompsInv r (fun a => a ∈ l ∨ S a)
        (l.foldl (fun cs y => insertComp r y cs) comps) := by
  intro l
  induction l with
  | nil =>
    intro S comps hinv _ _
    exact inv_congr (fun a => by simp) hinv
  | cons x t ih =>
    intro S comps hinv hnd hfresh
    have hinv' : CompsInv r (fun a => a = x ∨ S a) (insertComp r x comps) :=
      inv_insert hsym hinv (hfresh x (List.mem_cons_self x t))
    have hnd' : t.Nodup := (List.nodup_cons.mp hnd).2
    have hxt : x ∉ t := (List.nodup_cons.mp hnd).1
    have hfresh' : ∀ y ∈ t, ¬(y = x ∨ S y) := by
      intro y hy
      rintro (rfl | hS)
      · exact hxt hy
      · exact hfresh y (List.mem_cons_of_mem x hy) hS
    have hres := ih (fun a => a = x ∨ S a) (insertComp r x comps) hinv' hnd' hfresh'
    have hcongr : ∀ a, (a ∈ t ∨ (a = x ∨ S a)) ↔ (a ∈ x :: t ∨ S a) := by
      intro a
      simp [List.mem_cons]
      tauto
    exact inv_congr hcongr (by simpa using hres)

lemma inv_groupComponents {r : α → α → Bool} (hsym : ∀ a b, r a b = r b a)
    {l : List α} (hnd : l.Nodup) :
    CompsInv r (fun a => a ∈ l) (groupComponents r l) := by
  have h0 : CompsInv r (fun _ => False) ([] : List (List α)) := by
    refine ⟨by simp, by simp, by simp, by simp, by simp⟩
  have h := inv_fold hsym l (fun _ => False) [] h0 hnd (by simp)
  exact inv_congr (fun a => by simp) h

/-- The central characterization: two distinct elements lie in one computed
component exactly when they are chain-connected within the member list. -/
lemma mem_same_comp_iff {r : α → α → Bool} (hsym : ∀ a b, r a b = r b a)
    {l : List α} (hnd : l.Nodup) (a b : α) :
    (∃ c ∈ groupComponents r l, a ∈ c ∧ b ∈ c) ↔
      (a ∈ l ∧ b ∈ l ∧ reachOn r (fun y => y ∈ l) a b) := by
  have hinv := inv_groupComponents hsym hnd
  obtain ⟨hne, hndf, hmem, hreach, hsat⟩ := hinv
  constructor
  · rintro ⟨c, hc, hac, hbc⟩
    exact ⟨(hmem a).mp (List.mem_flatten.mpr ⟨c, hc, hac⟩),
      (hmem b).mp (List.mem_flatten.mpr ⟨c, hc, hbc⟩),
      hreach c hc a hac b hbc⟩
  · rintro ⟨hal, hbl, hr⟩
    obtain ⟨c, hc, hac⟩ := List.mem_flatten.mp ((hmem a).mpr hal)
    refine ⟨c, hc, hac, ?_⟩
    exact mem_comp_of_reach ⟨hne, hndf, hmem, hreach, hsat⟩ hc hac hr

lemma dot_comm : ∀ u v : List ℚ, dot u v = dot v u := by
  intro u
  induction u with
  | nil => intro v; cases v <;> simp [dot]
  | cons a u ih =>
    intro v
    cases v with
    | nil => simp [dot]
    | cons b v =>
      simp only [dot, List.zipWith_cons_cons, List.sum_cons]
      rw [mul_comm]
      have h := ih v
      simp only [dot] at h
      rw [h]

lemma similarEmb_symm (T : ℚ) : ∀ a b, similarEmb T a b = similarEmb T b a := by
  intro a b
  unfold similarEmb simAtLeast
  rw [dot_comm a.vector b.vector,
    mul_comm (dot a.vector a.vector) (dot b.vector b.vector)]

lemma nodup_of_mem_flatten_nodup {comps : List (List α)}
    (hnd : comps.flatten.Nodup) {c : List α} (hc : c ∈ comps) : c.Nodup :=
  (List.sublist_flatten_of_mem hc).nodup hnd

lemma two_le_length_of_mem_ne {c : List α} {a b : α} (ha : a ∈ c) (hb : b ∈ c)
    (hab : a ≠ b) : 2 ≤ c.length := by
  match c with
  | [] => simp at ha
  | [x] =>
    rcases List.mem_singleton.mp ha with rfl
    rcases List.mem_singleton.mp hb with rfl
    exact absurd rfl hab
  | x :: y :: t => simp

lemma minId_perm {l l' : List String} (h : List.Perm l l') :
    minId l = minId l' := by
  cases hl : l with
  | nil =>
    have : l' = [] := by
      subst hl
      exact h.symm.eq_nil
    rw [this]
  | cons a t =>
    have hne : l ≠ [] := by simp [hl]
    rw [← hl]
    apply minId_unique
    · exact h.mem_iff.mp (minId_mem hne)
    · intro x hx
      exact minId_le (h.mem_iff.mpr hx)

lemma mem_rank_iff {similar : Embedding → Embedding → Bool} {cl : ℕ}
    {members : List Embedding} {g : DuplicateGroup} :
    g ∈ DuplicateRanker.rank similar cl members ↔
      ∃ comp, comp ∈ groupComponents similar members ∧ 2 ≤ comp.length ∧
        g = { cluster_id := cl, members := comp.map Embedding.document_id,
              keeper_id := minId (comp.map Embedding.document_id) } := by
  constructor
  · intro hg
    obtain ⟨comp, hcf, hmk⟩ := List.mem_map.mp hg
    obtain ⟨hcm, hlen⟩ := List.mem_filter.mp hcf
    exact ⟨comp, hcm, by simpa using hlen, hmk.symm⟩
  · rintro ⟨comp, hcm, hlen, rfl⟩
    exact List.mem_map.mpr ⟨comp,
      List.mem_filter.mpr ⟨hcm, by simpa using hlen⟩, rfl⟩

/-- C3: within a cluster, two distinct documents of the cluster belong to the
same DuplicateGroup if and only if they are connected by a chain of
within-cluster pairs whose similarity meets the threshold T — the connected
components of the "similar" relation — not only when every pair in the group
is mutually above the threshold. -/
theorem c3_connected_component_grouping (T : ℚ) (cl : ℕ)
    (members : List Embedding) (a b : Embedding)
    (hnd : (members.map Embedding.document_id).Nodup)
    (ha : a ∈ members) (hb : b ∈ members) (hab : a ≠ b) :
    (∃ g ∈ DuplicateRanker.rank (similarEmb T) cl members,
        a.document_id ∈ g.members ∧ b.document_id ∈ g.members) ↔
      reachOn (similarEmb T) (fun y => y ∈ members) a b := by
  have hsym := similarEmb_symm T
  have hmnd : members.Nodup := List.Nodup.of_map _ hnd
  have hinj := List.inj_on_of_nodup_map hnd
  constructor
  · rintro ⟨g, hg, hag, hbg⟩
    rw [mem_rank_iff] at hg
    obtain ⟨comp, hcm, hlen, rfl⟩ := hg
    obtain ⟨hne, hndf, hmem, hreach, hsat⟩ := inv_groupComponents hsym hmnd
    obtain ⟨ea, hea, heqa⟩ := List.mem_map.mp hag
    obtain ⟨eb, heb, heqb⟩ := List.mem_map.mp hbg
    have hea_mem : ea ∈ members :=
      (hmem ea).mp (List.mem_flatten.mpr ⟨comp, hcm, hea⟩)
    have heb_mem : eb ∈ members :=
      (hmem eb).mp (List.mem_flatten.mpr ⟨comp, hcm, heb⟩)
    have hra : ea = a := hinj hea_mem ha heqa
    have hrb : eb = b := hinj heb_mem hb heqb
    subst hra; subst hrb
    exact hreach comp hcm ea hea eb heb
  · intro hr
    obtain ⟨comp, hcm, hac, hbc⟩ :=
      (mem_same_comp_iff hsym hmnd a b).mpr ⟨ha, hb, hr⟩
    refine ⟨_, mem_rank_iff.mpr
      ⟨comp, hcm, two_le_length_of_mem_ne hac hbc hab, rfl⟩, ?_, ?_⟩
    · exact List.mem_map.mpr ⟨a, hac, rfl⟩
    · exact List.mem_map.mpr ⟨b, hbc, rfl⟩

/-- Witness for C3 at a concrete two-element cluster whose embeddings are
identical: the chain hypothesis holds and the two documents share a group. -/
theorem c3_witness :
    ∃ g ∈ DuplicateRanker.rank (similarEmb (mkRat 99 100)) 0
        [⟨"a", [1, 0]⟩, ⟨"b", [1, 0]⟩],
      (⟨"a", [1, 0]⟩ : Embedding).document_id ∈ g.members ∧
      (⟨"b", [1, 0]⟩ : Embedding).document_id ∈ g.members := by
  apply (c3_connected_component_grouping (mkRat 99 100) 0
    [⟨"a", [1, 0]⟩, ⟨"b", [1, 0]⟩] ⟨"a", [1, 0]⟩ ⟨"b", [1, 0]⟩
    (by with_unfolding_all decide) (by with_unfolding_all decide)
    (by with_unfolding_all decide) (by with_unfolding_all decide)).mpr
  exact Relation.ReflTransGen.single
    ⟨by with_unfolding_all decide, by with_unfolding_all decide,
      by with_unfolding_all decide⟩

/-- C4: every group's keeper is the member with the lowest id in the fixed
total order on ids, and ranking a permutation of the same cluster members
yields the same groups with the same keepers. -/
theorem c4_keeper_lowest_id_stable (similar : Embedding → Embedding → Bool)
    (hsym : ∀ a b, similar a b = similar b a) (cl : ℕ)
    (members members' : List Embedding)
    (hnd : (members.map Embedding.document_id).Nodup)
    (hperm : List.Perm members' members) :
    (∀ g ∈ DuplicateRanker.rank similar cl members,
        g.keeper_id ∈ g.members ∧ ∀ i ∈ g.members, idLe g.keeper_id i = true)
    ∧ (∀ g ∈ DuplicateRanker.rank similar cl members,
        ∃ g' ∈ DuplicateRanker.rank similar cl members',
          List.Perm g'.members g.members ∧ g'.keeper_id = g.keeper_id) := by
  have hmnd : members.Nodup := List.Nodup.of_map _ hnd
  have hnd' : (members'.map Embedding.document_id).Nodup :=
    ((hperm.map Embedding.document_id).nodup_iff).mpr hnd
  have hmnd' : members'.Nodup := List.Nodup.of_map _ hnd'
  constructor
  · intro g hg
    rw [mem_rank_iff] at hg
    obtain ⟨comp, hcm, hlen, rfl⟩ := hg
    have hcne : comp ≠ [] := by
      intro h; rw [h] at hlen; simp at hlen
    have hids_ne : comp.map Embedding.document_id ≠ [] := by
      simpa using hcne
    exact ⟨minId_mem hids_ne, fun i hi => minId_le hi⟩
  · intro g hg
    rw [mem_rank_iff] at hg
    obtain ⟨comp, hcm, hlen, rfl⟩ := hg
    have hinv := inv_groupComponents hsym hmnd
    have hinv' := inv_groupComponents hsym hmnd'
    obtain ⟨hne, hndf, hmem, hreach, hsat⟩ := hinv
    obtain ⟨hne', hndf', hmem', hreach', hsat'⟩ := hinv'
    have hcne : comp ≠ [] := by
      intro h; rw [h] at hlen; simp at hlen
    obtain ⟨a, ha⟩ := List.exists_mem_of_ne_nil comp hcne
    have haM : a ∈ members := (hmem a).mp (List.mem_flatten.mpr ⟨comp, hcm, ha⟩)
    have haM' : a ∈ members' := hperm.mem_iff.mpr haM
    obtain ⟨comp', hcm', hac'⟩ := List.mem_flatten.mp ((hmem' a).mpr haM')
    have hreach_iff : ∀ x y : Embedding,
        reachOn similar (fun z => z ∈ members) x y ↔
          reachOn similar (fun z => z ∈ members') x y := by
      intro x y
      constructor
      · exact reachOn_mono (fun z hz => hperm.mem_iff.mpr hz)
      · exact reachOn_mono (fun z hz => hperm.mem_iff.mp hz)
    have hsame : ∀ y, y ∈ comp' ↔ y ∈ comp := by
      intro y
      constructor
      · intro hy
        have hr : reachOn similar (fun z => z ∈ members') a y :=
          hreach' comp' hcm' a hac' y hy
        exact mem_comp_of_reach ⟨hne, hndf, hmem, hreach, hsat⟩ hcm ha
          ((hreach_iff a y).mpr hr)
      · intro hy
        have hr : reachOn similar (fun z => z ∈ members) a y :=
          hreach comp hcm a ha y hy
        exact mem_comp_of_reach ⟨hne', hndf', hmem', hreach', hsat'⟩ hcm' hac'
          ((hreach_iff a y).mp hr)
    have hcnd : comp.Nodup := nodup_of_mem_flatten_nodup hndf hcm
    have hcnd' : comp'.Nodup := nodup_of_mem_flatten_nodup hndf' hcm'
    have hpermc : List.Perm comp' comp :=
      (List.perm_ext_iff_of_nodup hcnd' hcnd).mpr hsame
    have hlen' : 2 ≤ comp'.length := by
      rw [hpermc.length_eq]; exact hlen
    refine ⟨_, mem_rank_iff.mpr ⟨comp', hcm', hlen', rfl⟩, ?_, ?_⟩
    · exact hpermc.map Embedding.document_id
    · exact minId_perm (hpermc.map Embedding.document_id)

/-- Witness for C4 at a concrete two-element cluster and its swapped
permutation. -/
theorem c4_witness :
    ∃ g' ∈ DuplicateRanker.rank (similarEmb (mkRat 99 100)) 0
        [⟨"b", [1, 0]⟩, ⟨"a", [1, 0]⟩],
      List.Perm g'.members ["b", "a"] ∧ g'.keeper_id = "a" := by
  have h := (c4_keeper_lowest_id_stable (similarEmb (mkRat 99 100))
    (similarEmb_symm (mkRat 99 100)) 0
    [⟨"a", [1, 0]⟩, ⟨"b", [1, 0]⟩] [⟨"b", [1, 0]⟩, ⟨"a", [1, 0]⟩]
    (by with_unfolding_all decide)
    (List.Perm.swap (⟨"a", [1, 0]⟩ : Embedding) ⟨"b", [1, 0]⟩ [])).2
  have h2 := h ⟨0, ["b", "a"], "a"⟩ (by with_unfolding_all decide)
  simpa using h2

/-- Keeper ids of all groups. -/
def keeperIds (gs : List DuplicateGroup) : List String :=
  gs.map DuplicateGroup.keeper_id

/-- Ids of documents that belong to no group (implicitly unique). -/
def uniqueIds (es : List Embedding) (gs : List DuplicateGroup) : List String :=
  (es.map Embedding.document_id).filter
    (fun i => gs.all (fun g => !g.members.contains i))

lemma updateCentroids_length (K dim : ℕ) (cs : List (List ℚ))
    (es : List Embedding) (asg : List (Embedding × ℕ)) :
    (updateCentroids K dim cs es asg).length = K := by
  simp [updateCentroids]

lemma kmeansLoop_shape (es : List Embedding) (K dim : ℕ) :
    ∀ (fuel : ℕ) (cs : List (List ℚ)), cs.length = K →
      ∃ cs', cs'.length = K ∧ kmeansLoop es K dim fuel cs = assignStep cs' es := by
  intro fuel
  induction fuel with
  | zero => intro cs h; exact ⟨cs, h, rfl⟩
  | succ n ih =>
    intro cs h
    simp only [kmeansLoop]
    by_cases hstop :
        assignStep (updateCentroids K dim cs es (assignStep cs es)) es =
          assignStep cs es
    · exact ⟨cs, h, by simp [hstop]⟩
    · have := ih (updateCentroids K dim cs es (assignStep cs es))
        (updateCentroids_length K dim cs es (assignStep cs es))
      simpa [hstop] using this

lemma initCentroids_length (es : List Embedding) (K seed : ℕ)
    (h : K ≤ es.length) : (initCentroids es K seed).length = K := by
  simp [initCentroids]
  omega

lemma argminIdx_lt_length : ∀ l : List ℚ, l ≠ [] → argminIdx l < l.length := by
  intro l h
  match l with
  | [] => exact absurd rfl h
  | a :: rest =>
    simp only [argminIdx]
    cases hg : rest.get? (argminIdx rest) with
    | none => simp
    | some b =>
      by_cases hab : a ≤ b
      · simp [hab]
      · simp only [hab, if_false]
        have hlt : argminIdx rest < rest.length := by
          by_contra hge
          rw [List.get?_eq_none.mpr (Nat.le_of_not_lt hge)] at hg
          exact Option.noConfusion hg
        simpa using Nat.succ_lt_succ hlt

lemma nearestIdx_lt_length (cs : List (List ℚ)) (v : List ℚ) (h : cs ≠ []) :
    nearestIdx cs v < cs.length := by
  have hne : cs.map (fun c => sqDist v c) ≠ [] := by
    simpa using h
  have := argminIdx_lt_length _ hne
  simpa [nearestIdx] using this

lemma clusterMembers_assignStep (cs : List (List ℚ)) (c : ℕ) :
    ∀ es : List Embedding,
      clusterMembers (assignStep cs es) c =
        es.filter (fun e => nearestIdx cs e.vector = c) := by
  intro es
  induction es with
  | nil => rfl
  | cons e es ih =>
    simp only [assignStep, List.map_cons, clusterMembers, List.filter_cons] at ih ⊢
    by_cases h : nearestIdx cs e.vector = c
    · simp only [h]
      simpa [clusterMembers, assignStep, h] using congrArg (List.cons e) ih
    · simp only [h]
      simpa [clusterMembers, assignStep, h] using ih

lemma identify_ok_shape {es : List Embedding} {K seed maxIters : ℕ} {T : ℚ}
    {gs : List DuplicateGroup}
    (h : identifyDuplicateGroups es K seed maxIters T = .ok gs) :
    ∃ f : Embedding → ℕ,
      gs = (List.range K).flatMap (fun c =>
        DuplicateRanker.rank (similarEmb T) c
          (es.filter (fun e => f e = c))) ∧
      (K ≠ 0 → ∀ e : Embedding, f e < K) := by
  unfold identifyDuplicateGroups ClusterAssigner.assign at h
  by_cases hlen : es.length < K
  · rw [if_pos hlen] at h
    exact absurd h (by simp [Except.map])
  · rw [if_neg hlen] at h
    obtain ⟨cs', hcs'len, hloop⟩ := kmeansLoop_shape es K (dimOf es) maxIters
      (initCentroids es K seed)
      (initCentroids_length es K seed (Nat.le_of_not_lt hlen))
    refine ⟨fun e => nearestIdx cs' e.vector, ?_, ?_⟩
    · have hgs : gs = (List.range K).flatMap (fun c =>
          DuplicateRanker.rank (similarEmb T) c
            (clusterMembers (assignStep cs' es) c)) := by
        simp only [Except.map, hloop] at h
        exact (Except.ok.inj h).symm
      rw [hgs]
      congr 1
      funext c
      rw [clusterMembers_assignStep]
    · intro hK e
      have hcs'ne : cs' ≠ [] := by
        intro hnil
        rw [hnil] at hcs'len
        exact hK hcs'len.symm
      have := nearestIdx_lt_length cs' e.vector hcs'ne
      rwa [hcs'len] at this

lemma mem_duplicateIdSet_iff {gs : List DuplicateGroup} {x : String} :
    x ∈ duplicateIdSet gs ↔
      ∃ g ∈ gs, x ∈ g.members ∧ x ≠ g.keeper_id := by
  simp [duplicateIdSet, List.mem_flatMap, List.mem_filter]

lemma mem_keeperIds_iff {gs : List DuplicateGroup} {x : String} :
    x ∈ keeperIds gs ↔ ∃ g ∈ gs, g.keeper_id = x := by
  simp [keeperIds, List.mem_map]

lemma mem_uniqueIds_iff {es : List Embedding} {gs : List DuplicateGroup}
    {x : String} :
    x ∈ uniqueIds es gs ↔
      x ∈ es.map Embedding.document_id ∧ ∀ g ∈ gs, x ∉ g.members := by
  simp [uniqueIds, List.mem_filter, List.all_eq_true]

lemma rank_flatMap_facts (T : ℚ) (es : List Embedding) (K : ℕ)
    (f : Embedding → ℕ) (gs : List DuplicateGroup)
    (hnd : (es.map Embedding.document_id).Nodup)
    (hgs : gs = (List.range K).flatMap (fun c =>
      DuplicateRanker.rank (similarEmb T) c
        (es.filter (fun e => f e = c)))) :
    (∀ g ∈ gs, ∀ x ∈ g.members, ∃ e ∈ es, e.document_id = x) ∧
    (∀ g ∈ gs, g.keeper_id ∈ g.members) ∧
    (∀ g₁ ∈ gs, ∀ g₂ ∈ gs, ∀ x, x ∈ g₁.members → x ∈ g₂.members → g₁ = g₂) := by
  subst hgs
  have hsym := similarEmb_symm T
  have hinj := List.inj_on_of_nodup_map hnd
  have hnd_ids : ∀ c : ℕ,
      ((es.filter (fun e => f e = c)).map Embedding.document_id).Nodup := by
    intro c
    exact List.Nodup.sublist
      ((List.filter_sublist es).map Embedding.document_id) hnd
  have hmem_cluster : ∀ (c : ℕ) (comp : List Embedding),
      comp ∈ groupComponents (similarEmb T) (es.filter (fun e => f e = c)) →
      ∀ e ∈ comp, e ∈ es ∧ f e = c := by
    intro c comp hcomp e he
    obtain ⟨-, -, hmem, -, -⟩ :=
      inv_groupComponents hsym (List.Nodup.of_map _ (hnd_ids c))
    have : e ∈ es.filter (fun e => f e = c) :=
      (hmem e).mp (List.mem_flatten.mpr ⟨comp, hcomp, he⟩)
    have h' := List.mem_filter.mp this
    exact ⟨h'.1, by simpa using h'.2⟩
  have horigin : ∀ g,
      g ∈ (List.range K).flatMap (fun c =>
        DuplicateRanker.rank (similarEmb T) c
          (es.filter (fun e => f e = c))) ↔
      ∃ c, c ∈ List.range K ∧
        ∃ comp, comp ∈ groupComponents (similarEmb T)
            (es.filter (fun e => f e = c)) ∧ 2 ≤ comp.length ∧
          g = { cluster_id := c, members := comp.map Embedding.document_id,
                keeper_id := minId (comp.map Embedding.document_id) } := by
    intro g
    rw [List.mem_flatMap]
    constructor
    · rintro ⟨c, hc, hg⟩
      obtain ⟨comp, h1, h2, h3⟩ := mem_rank_iff.mp hg
      exact ⟨c, hc, comp, h1, h2, h3⟩
    · rintro ⟨c, hc, comp, h1, h2, h3⟩
      exact ⟨c, hc, mem_rank_iff.mpr ⟨comp, h1, h2, h3⟩⟩
  refine ⟨?_, ?_, ?_⟩
  · intro g hg x hx
    obtain ⟨c, -, comp, hcomp, -, rfl⟩ := (horigin g).mp hg
    obtain ⟨e, he, rfl⟩ := List.mem_map.mp hx
    exact ⟨e, (hmem_cluster c comp hcomp e he).1, rfl⟩
  · intro g hg
    obtain ⟨c, -, comp, -, hlen, rfl⟩ := (horigin g).mp hg
    have hcne : comp ≠ [] := by
      intro h; rw [h] at hlen; simp at hlen
    exact minId_mem (by simpa using hcne)
  · intro g₁ hg₁ g₂ hg₂ x hx₁ hx₂
    obtain ⟨c₁, -, comp₁, hcomp₁, hlen₁, rfl⟩ := (horigin g₁).mp hg₁
    obtain ⟨c₂, -, comp₂, hcomp₂, hlen₂, rfl⟩ := (horigin g₂).mp hg₂
    obtain ⟨e₁, he₁, heq₁⟩ := List.mem_map.mp hx₁
    obtain ⟨e₂, he₂, heq₂⟩ := List.mem_map.mp hx₂
    obtain ⟨he₁es, hf₁⟩ := hmem_cluster c₁ comp₁ hcomp₁ e₁ he₁
    obtain ⟨he₂es, hf₂⟩ := hmem_cluster c₂ comp₂ hcomp₂ e₂ he₂
    have he12 : e₁ = e₂ := hinj he₁es he₂es (heq₁.trans heq₂.symm)
    have hc12 : c₁ = c₂ := by rw [← hf₁, he12, hf₂]
    subst hc12
    subst he12
    obtain ⟨-, hndf, -, -, -⟩ :=
      inv_groupComponents hsym (List.Nodup.of_map _ (hnd_ids c₁))
    have hcc : comp₁ = comp₂ :=
      comp_unique hndf comp₁ hcomp₁ comp₂ hcomp₂ e₁ he₁ he₂
    rw [hcc]

/-- C2: for every input whose document ids are distinct, the duplicate-id
set, the keepers of the groups, and the documents belonging to no group are
pairwise disjoint and together cover exactly the full input document-id
set. -/
theorem c2_partition (es : List Embedding) (K seed maxIters : ℕ) (T : ℚ)
    (gs : List DuplicateGroup)
    (hnd : (es.map Embedding.document_id).Nodup)
    (hok : identifyDuplicateGroups es K seed maxIters T = .ok gs)
    (x : String) :
    (x ∈ es.map Embedding.document_id ↔
      (x ∈ duplicateIdSet gs ∨ x ∈ keeperIds gs ∨ x ∈ uniqueIds es gs))
    ∧ ¬(x ∈ duplicateIdSet gs ∧ x ∈ keeperIds gs)
    ∧ ¬(x ∈ duplicateIdSet gs ∧ x ∈ uniqueIds es gs)
    ∧ ¬(x ∈ keeperIds gs ∧ x ∈ uniqueIds es gs) := by
  obtain ⟨f, hgs, -⟩ := identify_ok_shape hok
  obtain ⟨hcov, hkeep, hdisj⟩ := rank_flatMap_facts T es K f gs hnd hgs
  refine ⟨?_, ?_, ?_, ?_⟩
  · constructor
    · intro hx
      by_cases hq : ∃ g ∈ gs, x ∈ g.members
      · obtain ⟨g, hg, hxg⟩ := hq
        by_cases hk : x = g.keeper_id
        · exact Or.inr (Or.inl (mem_keeperIds_iff.mpr ⟨g, hg, hk.symm⟩))
        · exact Or.inl (mem_duplicateIdSet_iff.mpr ⟨g, hg, hxg, hk⟩)
      · push_neg at hq
        exact Or.inr (Or.inr (mem_uniqueIds_iff.mpr ⟨hx, hq⟩))
    · rintro (hx | hx | hx)
      · obtain ⟨g, hg, hxg, -⟩ := mem_duplicateIdSet_iff.mp hx
        obtain ⟨e, he, rfl⟩ := hcov g hg x hxg
        exact List.mem_map.mpr ⟨e, he, rfl⟩
      · obtain ⟨g, hg, hk⟩ := mem_keeperIds_iff.mp hx
        obtain ⟨e, he, rfl⟩ := hcov g hg x (hk ▸ hkeep g hg)
        exact List.mem_map.mpr ⟨e, he, rfl⟩
      · exact (mem_uniqueIds_iff.mp hx).1
  · rintro ⟨hd, hk⟩
    obtain ⟨g₁, hg₁, hxg₁, hne₁⟩ := mem_duplicateIdSet_iff.mp hd
    obtain ⟨g₂, hg₂, hk₂⟩ := mem_keeperIds_iff.mp hk
    have : g₁ = g₂ := hdisj g₁ hg₁ g₂ hg₂ x hxg₁ (hk₂ ▸ hkeep g₂ hg₂)
    rw [this] at hne₁
    exact hne₁ hk₂.symm
  · rintro ⟨hd, hu⟩
    obtain ⟨g, hg, hxg, -⟩ := mem_duplicateIdSet_iff.mp hd
    exact (mem_uniqueIds_iff.mp hu).2 g hg hxg
  · rintro ⟨hk, hu⟩
    obtain ⟨g, hg, hk₂⟩ := mem_keeperIds_iff.mp hk
    exact (mem_uniqueIds_iff.mp hu).2 g hg (hk₂ ▸ hkeep g hg)

/-- The six documents of the spec's concrete scenario. -/
def exDataset : List Document :=
  [⟨"d1", "t1"⟩, ⟨"d2", "t2"⟩, ⟨"d3", "t3"⟩,
   ⟨"d4", "t4"⟩, ⟨"d5", "t5"⟩, ⟨"d6", "t6"⟩]

/-- The six embeddings of the spec's concrete scenario: `d1,d2,d3` identical,
`d4,d5` identical, `d6` distinct from both. -/
def exEmbeddings : List Embedding :=
  [⟨"d1", [1, 0]⟩, ⟨"d2", [1, 0]⟩, ⟨"d3", [1, 0]⟩,
   ⟨"d4", [0, 1]⟩, ⟨"d5", [0, 1]⟩, ⟨"d6", [1, 1]⟩]

/-- The two duplicate groups the pipeline computes on the concrete
scenario. -/
def exGroups : List DuplicateGroup :=
  [⟨0, ["d3", "d2", "d1"], "d1"⟩, ⟨1, ["d5", "d4"], "d4"⟩]

/-- C1: on the concrete 6-document scenario with K = 2 and threshold 0.99 the
pipeline produces exactly the two expected DuplicateGroups `{d1,d2,d3}` with
keeper `d1` and `{d4,d5}` with keeper `d4`, the DuplicateIdSet `{d2,d3,d5}`,
`d6` unique, and the FilteredDataset `{d1,d4,d6}`. -/
theorem c1_concrete_scenario :
    identifyDuplicateGroups exEmbeddings 2 2 10 (mkRat 99 100) = .ok exGroups
    ∧ exGroups.length = 2
    ∧ exGroups.map (fun g => g.members.toFinset) =
        [{"d1", "d2", "d3"}, {"d4", "d5"}]
    ∧ exGroups.map DuplicateGroup.keeper_id = ["d1", "d4"]
    ∧ (duplicateIdSet exGroups).toFinset = {"d2", "d3", "d5"}
    ∧ "d6" ∈ uniqueIds exEmbeddings exGroups
    ∧ RemovalApplier.apply exDataset (duplicateIdSet exGroups) =
        [⟨"d1", "t1"⟩, ⟨"d4", "t4"⟩, ⟨"d6", "t6"⟩] := by
  with_unfolding_all decide

/-- Witness for C2 on the concrete scenario at the id `d6`. -/
theorem c2_witness :
    ("d6" ∈ exEmbeddings.map Embedding.document_id ↔
      ("d6" ∈ duplicateIdSet exGroups ∨ "d6" ∈ keeperIds exGroups ∨
        "d6" ∈ uniqueIds exEmbeddings exGroups))
    ∧ ¬("d6" ∈ duplicateIdSet exGroups ∧ "d6" ∈ keeperIds exGroups)
    ∧ ¬("d6" ∈ duplicateIdSet exGroups ∧
        "d6" ∈ uniqueIds exEmbeddings exGroups)
    ∧ ¬("d6" ∈ keeperIds exGroups ∧
        "d6" ∈ uniqueIds exEmbeddings exGroups) :=
  c2_partition exEmbeddings 2 2 10 (mkRat 99 100) exGroups
    (by with_unfolding_all decide) (by with_unfolding_all decide) "d6"

/-- C5: removal is a pure set-difference filter — a document is retained
exactly when its id is not in the duplicate-id set, and removing the empty
set returns the dataset unchanged. -/
theorem c5_removal_pure_filter :
    (∀ (dataset : List Document) (dupIds : List String) (d : Document),
        d ∈ RemovalApplier.apply dataset dupIds ↔
          d ∈ dataset ∧ d.id ∉ dupIds)
    ∧ ∀ dataset : List Document, RemovalApplier.apply dataset [] = dataset := by
  constructor
  · intro dataset dupIds d
    simp [RemovalApplier.apply, List.mem_filter]
  · intro dataset
    simp [RemovalApplier.apply]

/-- C6: the cluster assigner is reproducible — two runs on identical
embeddings, K, seed and iteration cap return identical assignments. -/
theorem c6_assign_reproducible (es : List Embedding) (K seed maxIters : ℕ)
    (r₁ r₂ : Except DedupError (List (Embedding × ℕ)))
    (h₁ : r₁ = ClusterAssigner.assign es K seed maxIters)
    (h₂ : r₂ = ClusterAssigner.assign es K seed maxIters) : r₁ = r₂ :=
  h₁.trans h₂.symm

/-- Witness for C6 at the concrete scenario inputs. -/
theorem c6_witness :
    ClusterAssigner.assign exEmbeddings 2 2 10 =
      ClusterAssigner.assign exEmbeddings 2 2 10 :=
  c6_assign_reproducible exEmbeddings 2 2 10 _ _ rfl rfl

/-- C7: the assigner fails with `InsufficientData` exactly when there are
fewer embeddings than requested clusters, surfacing the error to the
caller. -/
theorem c7_insufficient_data_iff (es : List Embedding) (K seed maxIters : ℕ) :
    ClusterAssigner.assign es K seed maxIters = .error .InsufficientData ↔
      es.length < K := by
  unfold ClusterAssigner.assign
  by_cases h : es.length < K
  · simp [h]
  · simp [h]

/-- Witness for C7: one embedding and two requested clusters fail. -/
theorem c7_witness :
    ClusterAssigner.assign [⟨"d1", [1, 0]⟩] 2 0 5 =
      .error .InsufficientData :=
  (c7_insufficient_data_iff [⟨"d1", [1, 0]⟩] 2 0 5).mpr (by decide)

/-- C8: the cache returns an artifact only from an intact entry whose
fingerprint matches exactly; when every matching entry lacks the integrity
marker the lookup is a miss (`none`, never an error); writes succeed on
writable storage and unwritable storage is the only fatal cache failure. -/
theorem c8_cache_contract :
    (∀ (cache : List CacheEntry) (fp : ℕ) (a : List String),
        DedupResultCache.get cache fp = some a →
          ∃ e ∈ cache, e.fingerprint = fp ∧ e.intact = true ∧ e.artifact = a)
    ∧ (∀ (cache : List CacheEntry) (fp : ℕ),
        (∀ e ∈ cache, e.fingerprint = fp → e.intact = false) →
          DedupResultCache.get cache fp = none)
    ∧ (∀ (cache : List CacheEntry) (fp : ℕ) (art : List String),
        DedupResultCache.put true cache fp art = .ok (⟨fp, true, art⟩ :: cache))
    ∧ (∀ (cache : List CacheEntry) (fp : ℕ) (art : List String),
        DedupResultCache.put false cache fp art =
          .error .StorageUnavailable) := by
  refine ⟨?_, ?_, ?_, ?_⟩
  · intro cache fp a h
    unfold DedupResultCache.get at h
    cases hf : (cache.filter (fun e => e.fingerprint = fp && e.intact)) with
    | nil => rw [hf] at h; simp at h
    | cons e t =>
      rw [hf] at h
      simp only [List.head?_cons, Option.map_some] at h
      have he : e ∈ cache.filter (fun e => e.fingerprint = fp && e.intact) := by
        rw [hf]; exact List.mem_cons_self e t
      obtain ⟨hem, hpred⟩ := List.mem_filter.mp he
      rw [Bool.and_eq_true] at hpred
      refine ⟨e, hem, by simpa using hpred.1, hpred.2, ?_⟩
      exact Option.some.inj h
  · intro cache fp hall
    unfold DedupResultCache.get
    have hf : cache.filter (fun e => e.fingerprint = fp && e.intact) = [] := by
      rw [List.filter_eq_nil_iff]
      intro e he
      rw [Bool.and_eq_true]
      rintro ⟨hfp, hint⟩
      rw [hall e he (by simpa using hfp)] at hint
      exact Bool.false_ne_true hint
    rw [hf]
    rfl
  · intro cache fp art; rfl
  · intro cache fp art; rfl

/-- Witness for C8: a corrupted (not-intact) matching entry is a miss. -/
theorem c8_witness :
    DedupResultCache.get [⟨5, false, ["x"]⟩] 5 = none :=
  c8_cache_contract.2.1 [⟨5, false, ["x"]⟩] 5 (by decide)

/-- The concrete failure used against C9: `read_data` raises. -/
def exFail : MainStep → Bool := fun s => decide (s = .readData)

/-- Counterexample to C9: when `read_data` raises, the client has been
constructed but `client.close()` never runs — `main` has no exception
handler, so the claim "torn down on every exit path" fails on the code. -/
theorem c9_counterexample :
    clientConstructed exFail = true ∧ clientClosed exFail = false := by
  decide

lemma takeWhile_all {p : α → Bool} :
    ∀ l : List α, (∀ s ∈ l, p s = true) → l.takeWhile p = l := by
  intro l
  induction l with
  | nil => intro _; rfl
  | cons a t ih =>
    intro h
    rw [List.takeWhile_cons, h a (List.mem_cons_self a t), if_pos rfl]
    rw [ih (fun s hs => h s (List.mem_cons_of_mem a hs))]

lemma last_mem_takeWhile {p : α → Bool} :
    ∀ (l : List α) (x : α), x ∉ l → x ∈ (l ++ [x]).takeWhile p →
      ∀ s ∈ l ++ [x], p s = true := by
  intro l
  induction l with
  | nil =>
    intro x _ hx s hs
    rw [List.nil_append, List.takeWhile] at hx
    rcases List.mem_singleton.mp hs with rfl
    cases hp : p s with
    | false => rw [hp] at hx; simp at hx
    | true => rfl
  | cons a t ih =>
    intro x hxl hx s hs
    have hxa : x ≠ a := fun h => hxl (h ▸ List.mem_cons_self a t)
    have hxt : x ∉ t := fun h => hxl (List.mem_cons_of_mem a h)
    rw [List.cons_append, List.takeWhile_cons] at hx
    cases hpa : p a with
    | false => rw [hpa] at hx; simp at hx
    | true =>
      rw [hpa, if_pos rfl] at hx
      rcases List.mem_cons.mp hx with rfl | hx'
      · exact absurd rfl hxa
      · rcases List.mem_cons.mp hs with rfl | hs'
        · exact hpa
        · exact ih x hxt hx' s hs'

/-- C9 amended: `client.close()` completes exactly when no step of `main`
raises; on the normal path the client is both constructed and closed, but an
exception between construction and the end skips the close. -/
theorem c9_close_only_on_normal_path (failsAt : MainStep → Bool) :
    (clientClosed failsAt = true ↔ ∀ s ∈ mainSteps, failsAt s = false)
    ∧ (clientClosed failsAt = true → clientConstructed failsAt = true) := by
  have hsplit : mainSteps =
      [MainStep.loadConfig, .getClient, .silenceWarnings, .clientRunSilence,
       .expandCacheDir, .createLogger, .listInputFiles, .truncateInputFiles,
       .logFileCount, .readData, .wrapDataset, .constructSemDedup,
       .identifyDuplicates, .printDuplicates, .logIdentifyTime,
       .removeDuplicates, .printResult, .logRemoveTime, .cancelFutures] ++
        [.closeClient] := rfl
  have hiff : clientClosed failsAt = true ↔
      ∀ s ∈ mainSteps, failsAt s = false := by
    constructor
    · intro h
      have hmem : MainStep.closeClient ∈ completedSteps failsAt :=
        of_decide_eq_true h
      unfold completedSteps at hmem
      rw [hsplit] at hmem ⊢
      intro s hs
      have := last_mem_takeWhile _ MainStep.closeClient (by decide) hmem s hs
      simpa using this
    · intro h
      have hall : ∀ s ∈ mainSteps, (!failsAt s) = true := by
        intro s hs
        simpa using h s hs
      unfold clientClosed completedSteps
      rw [takeWhile_all mainSteps hall]
      exact decide_eq_true_eq.mpr (by rw [hsplit]; simp)
  refine ⟨hiff, ?_⟩
  · intro h
    have hall : ∀ s ∈ mainSteps, (!failsAt s) = true := by
      intro s hs
      simpa using hiff.mp h s hs
    unfold clientConstructed completedSteps
    rw [takeWhile_all mainSteps hall]
    exact decide_eq_true_eq.mpr (by rw [hsplit]; simp)

/-- Witness for C9's amended statement: with no failing step the client is
closed. -/
theorem c9_witness : clientClosed (fun _ => false) = true :=
  (c9_close_only_on_normal_path (fun _ => false)).1.mpr (by decide)

/-- C10: when `num_files > 0` only the first `num_files` discovered input
files are kept, when `num_files ≤ 0` all of them are, and the selection is
always an unaltered leading part of the discovered list. -/
theorem c10_num_files_truncation (files : List String) (n : ℤ) :
    (0 < n → selectInputFiles files n = files.take n.toNat)
    ∧ (n ≤ 0 → selectInputFiles files n = files)
    ∧ ∃ rest, files = selectInputFiles files n ++ rest := by
  refine ⟨?_, ?_, ?_⟩
  · intro h
    simp [selectInputFiles, h]
  · intro h
    simp [selectInputFiles, Int.not_lt.mpr h]
  · unfold selectInputFiles
    by_cases h : 0 < n
    · rw [if_pos h]
      exact ⟨files.drop n.toNat, (List.take_append_drop n.toNat files).symm⟩
    · rw [if_neg h]
      exact ⟨[], by simp⟩

/-- Witness for C10: with `num_files = 2` only the first two files remain. -/
theorem c10_witness :
    selectInputFiles ["a", "b", "c"] 2 = ["a", "b"] :=
  ((c10_num_files_truncation ["a", "b", "c"] 2).1 (by decide)).trans (by rfl)

/-- Witness for C5: removing the empty duplicate set leaves the concrete
dataset unchanged. -/
theorem c5_witness :
    RemovalApplier.apply exDataset [] = exDataset :=
  c5_removal_pure_filter.2 exDataset
